import Mathlib

/-!
Shallow embedding of the encryption layer of limard/goleveldb
(src/leveldb/storage.go, current revision, and src/leveldb/crypto/xor.go).

Bytes are modelled as `Nat` (values < 256 in practice; the XOR keystream
algebra needs no upper bound).  Go `int64` offsets are modelled as `Nat`,
matching the non-negative offsets of the specification.  Go's integer
division-by-zero panic and `aes.NewCipher` failure are modelled with
`Option`.  The AES block cipher primitive is out of scope of the repository
(an imported, trusted capability), so the CTR keystream is an abstract
parameter `ks : List Nat → Nat → Nat` mapping an IV and a position in the
stream to a keystream byte; everything the repository itself computes
(segmenting, IV derivation, skipping, chunking) is embedded faithfully.
-/

namespace GoLevelDB

/-- `BlockSize = 40`, the segment size constant of storage.go. -/
def BlockSize : Nat := 40

/-- `binary.LittleEndian.PutUint64`: the 8 little-endian bytes of `n`
(truncated to 64 bits exactly as the Go `uint64` conversion does). -/
def leBytes8 (n : Nat) : List Nat :=
  [n % 256, n / 256 % 256, n / 256 ^ 2 % 256, n / 256 ^ 3 % 256,
   n / 256 ^ 4 % 256, n / 256 ^ 5 % 256, n / 256 ^ 6 % 256, n / 256 ^ 7 % 256]

/-- `aesCipher.getIV`: block-start-aligned IV, first 8 key bytes followed by
the little-endian encoding of the segment start (16 bytes in total). -/
def getIV (key : List Nat) (offset : Nat) : List Nat :=
  List.take 8 key ++ leBytes8 (offset / BlockSize * BlockSize)

/-- CTR-mode XOR of `data` against the keystream of `iv`, starting `skip`
bytes into the stream (`stream.XORKeyStream` after discarding `skip` bytes). -/
def ctrXor (ks : List Nat → Nat → Nat) (iv : List Nat) :
    Nat → List Nat → List Nat
  | _, [] => []
  | skip, d :: ds => (d ^^^ ks iv skip) :: ctrXor ks iv (skip + 1) ds

/-- The `for processed < len(data)` loop of `aesCipher.EncryptAt`: each
iteration re-derives the IV from the current offset's segment start and
transforms at most `BlockSize` bytes. -/
def aesLoop (ks : List Nat → Nat → Nat) (key : List Nat)
    (currentOffset : Nat) (data : List Nat) : List Nat :=
  if h : data = [] then []
  else
    let bytesInBlock := min BlockSize data.length
    ctrXor ks (getIV key (currentOffset / BlockSize * BlockSize)) 0
        (data.take bytesInBlock)
      ++ aesLoop ks key (currentOffset + bytesInBlock) (data.drop bytesInBlock)
termination_by data.length
decreasing_by
  simp only [List.length_drop]
  have h1 : 1 ≤ data.length := by
    cases data with
    | nil => exact absurd rfl h
    | cons a as => exact Nat.succ_le_succ (Nat.zero_le _)
  have h2 : 1 ≤ min BlockSize data.length := by
    simp only [BlockSize]; omega
  omega

/-- `aesCipher.EncryptAt`: segmented CTR encryption.  Empty data returns
immediately; data inside one segment uses a single skipped stream; spanning
data handles a leading partial segment then whole segments in a loop. -/
def aesEncryptAt (ks : List Nat → Nat → Nat) (key : List Nat)
    (data : List Nat) (offset : Nat) : List Nat :=
  if data = [] then data
  else
    let blockStart := offset / BlockSize * BlockSize
    let offsetInBlock := offset - blockStart
    if offsetInBlock + data.length ≤ BlockSize then
      ctrXor ks (getIV key blockStart) offsetInBlock data
    else if 0 < offsetInBlock then
      let bytesInFirstBlock := BlockSize - offsetInBlock
      ctrXor ks (getIV key blockStart) offsetInBlock (data.take bytesInFirstBlock)
        ++ aesLoop ks key (offset + bytesInFirstBlock) (data.drop bytesInFirstBlock)
    else
      aesLoop ks key offset data

/-- `aesCipher.DecryptAt`: CTR mode is self-inverse, same as `EncryptAt`. -/
def aesDecryptAt (ks : List Nat → Nat → Nat) (key : List Nat)
    (data : List Nat) (offset : Nat) : List Nat :=
  aesEncryptAt ks key data offset

/-- `newAESCipher` key normalization: keys shorter than 32 bytes get
`newKey[i] = byte(i)` appended for `i ∈ [len(key), 32)`; longer keys are
truncated to their first 32 bytes. -/
def normalizeKey (key : List Nat) : List Nat :=
  if key.length < 32 then key ++ (List.range 32).drop key.length
  else if 32 < key.length then key.take 32
  else key

/-- `newAESCipher`: normalize the key, then build the block cipher.
`aes.NewCipher` fails (the Go code panics) exactly when the key length is
not 16, 24 or 32; `none` models that panic.  The cipher's state is its key. -/
def newAESCipher (key : List Nat) : Option (List Nat) :=
  let k := normalizeKey key
  if k.length = 16 ∨ k.length = 24 ∨ k.length = 32 then some k else none

/-- The per-byte loop of `xorCipher.EncryptAt`: element `i` of the result is
`data[i] ^^^ key[(keyOffset + i) % len(key)]`, carried here by incrementing
`keyOffset` at each step. -/
def xorBytes (key : List Nat) : List Nat → Nat → List Nat
  | [], _ => []
  | d :: ds, keyOffset =>
      (d ^^^ key.getD (keyOffset % key.length) 0) :: xorBytes key ds (keyOffset + 1)

/-- `xorCipher.EncryptAt` (identical to `crypto.Cipher.EncryptAt`):
`keyOffset := offset % keyLen` faults with a division-by-zero panic when the
key is empty (`none`); otherwise each byte is XORed with the repeating key. -/
def xorEncryptAt (key : List Nat) (data : List Nat) (offset : Nat) :
    Option (List Nat) :=
  if key.length = 0 then none
  else some (xorBytes key data (offset % key.length))

/-- `xorCipher.DecryptAt`: XOR is self-inverse, same as `EncryptAt`. -/
def xorDecryptAt (key : List Nat) (data : List Nat) (offset : Nat) :
    Option (List Nat) :=
  xorEncryptAt key data offset

/-- A non-nil `iCipher` value: either `xorCipher{key}` or `aesCipher{key}`
(the aes key already normalized by `newAESCipher`). -/
inductive XCipher where
  | xor : List Nat → XCipher
  | aes : List Nat → XCipher
deriving DecidableEq

/-- `iCipher.EncryptAt` dispatch. -/
def XCipher.encryptAt (ks : List Nat → Nat → Nat) :
    XCipher → List Nat → Nat → Option (List Nat)
  | XCipher.xor k, data, offset => xorEncryptAt k data offset
  | XCipher.aes k, data, offset => some (aesEncryptAt ks k data offset)

/-- `iCipher.DecryptAt` dispatch: both implementations delegate to their own
`EncryptAt`. -/
def XCipher.decryptAt (ks : List Nat → Nat → Nat) (c : XCipher)
    (data : List Nat) (offset : Nat) : Option (List Nat) :=
  XCipher.encryptAt ks c data offset

/-- `newCipher`: nil key gives a nil cipher; `EncryptionVersion` 1 selects
XOR, 2 selects AES (via `newAESCipher`), anything else gives a nil cipher. -/
def newCipher (key : Option (List Nat)) (version : Int) : Option XCipher :=
  match key with
  | none => none
  | some k =>
      if version = 1 then some (XCipher.xor k)
      else if version = 2 then (newAESCipher k).map XCipher.aes
      else none

/-- The byte value of `"goleveldb-key"`, the default key of
`crypto.NewCipher`. -/
def defaultXorKey : List Nat :=
  [103, 111, 108, 101, 118, 101, 108, 100, 98, 45, 107, 101, 121]

/-- The key stored by `crypto.NewCipher`: a nil key is replaced by
`"goleveldb-key"`, every other key (the empty one included) is kept as is. -/
def cryptoNewCipherKey (key : Option (List Nat)) : List Nat :=
  match key with
  | none => defaultXorKey
  | some k => k

/-! The stream wrapper (`iStorageReader` / `iStorageWriter`).  A call's
interaction with the underlying raw stream is modelled by its outcome:
for reads the `chunk` of `n = chunk.length` bytes the raw `Read`/`ReadAt`
deposited in the buffer together with its error value, for writes the count
`n` of bytes the raw `Write` accepted together with its error value.  The
shared `uint64` counter of `iStorage` is one `Nat` accumulated modulo
`2 ^ 64`.  A cipher panic (empty XOR key) makes the whole call fault,
modelled by `none`. -/

/-- Mutable state of one stream: its `offset` (trackedOffset) and the
`iStorage`-shared byte counter it increments (`read` resp. `write`). -/
structure StreamState where
  offset : Nat
  count : Nat
deriving DecidableEq

/-- `iStorageReader.Read`: delegate, then — only when `n > 0` and a cipher
is present — decrypt at the tracked offset, advance it and add to the
counter.  Returns (bytes seen by the caller, error, new state). -/
def readStep (ks : List Nat → Nat → Nat) (cipher : Option XCipher)
    (st : StreamState) (chunk : List Nat) (err : Option Nat) :
    Option (List Nat × Option Nat × StreamState) :=
  match cipher with
  | none => some (chunk, err, st)
  | some c =>
      if chunk.length = 0 then some (chunk, err, st)
      else
        match XCipher.decryptAt ks c chunk st.offset with
        | none => none
        | some dec =>
            some (dec, err,
              { offset := st.offset + chunk.length,
                count := (st.count + chunk.length) % 2 ^ 64 })

/-- `iStorageReader.ReadAt`: same shape as `Read` but decrypts at the
caller-supplied `off` and never touches `offset`. -/
def readAtStep (ks : List Nat → Nat → Nat) (cipher : Option XCipher)
    (st : StreamState) (chunk : List Nat) (off : Nat) (err : Option Nat) :
    Option (List Nat × Option Nat × StreamState) :=
  match cipher with
  | none => some (chunk, err, st)
  | some c =>
      if chunk.length = 0 then some (chunk, err, st)
      else
        match XCipher.decryptAt ks c chunk off with
        | none => none
        | some dec =>
            some (dec, err,
              { offset := st.offset,
                count := (st.count + chunk.length) % 2 ^ 64 })

/-- `iStorageWriter.Write`: with a cipher, encrypt at the tracked offset and
hand the ciphertext to the raw writer; without one, hand `p` through.  On a
raw-write error return before touching offset or counter; on success advance
the offset by the accepted count `n` and add `n` to the counter.  Returns
(bytes handed to the raw writer, n, error, new state). -/
def writeStep (ks : List Nat → Nat → Nat) (cipher : Option XCipher)
    (st : StreamState) (p : List Nat) (n : Nat) (err : Option Nat) :
    Option (List Nat × Nat × Option Nat × StreamState) :=
  match cipher with
  | some c =>
      match XCipher.encryptAt ks c p st.offset with
      | none => none
      | some enc =>
          if err.isSome then some (enc, n, err, st)
          else
            some (enc, n, err,
              { offset := st.offset + n, count := (st.count + n) % 2 ^ 64 })
  | none =>
      if err.isSome then some (p, n, err, st)
      else
        some (p, n, err,
          { offset := st.offset + n, count := (st.count + n) % 2 ^ 64 })

/-- One successful read-side call on a reader stream: a sequential `Read`
that transferred `chunk`, or a `ReadAt` at `off` that transferred `chunk`. -/
inductive RCall where
  | seqRead : List Nat → RCall
  | posRead : List Nat → Nat → RCall
deriving DecidableEq

/-- Bytes transferred by a read-side call. -/
def RCall.size : RCall → Nat
  | RCall.seqRead chunk => chunk.length
  | RCall.posRead chunk _ => chunk.length

/-- Run a sequence of successful (error-free) read-side calls on one reader
stream, threading the stream state. -/
def runReader (ks : List Nat → Nat → Nat) (cipher : Option XCipher) :
    StreamState → List RCall → Option StreamState
  | st, [] => some st
  | st, RCall.seqRead chunk :: rest =>
      match readStep ks cipher st chunk none with
      | some (_, _, st') => runReader ks cipher st' rest
      | none => none
  | st, RCall.posRead chunk off :: rest =>
      match readAtStep ks cipher st chunk off none with
      | some (_, _, st') => runReader ks cipher st' rest
      | none => none

/-- Run a sequence of successful (error-free) `Write` calls on one writer
stream; each call supplies the plaintext `p` and the count `n` of bytes the
raw writer accepted. -/
def runWriter (ks : List Nat → Nat → Nat) (cipher : Option XCipher) :
    StreamState → List (List Nat × Nat) → Option StreamState
  | st, [] => some st
  | st, (p, n) :: rest =>
      match writeStep ks cipher st p n none with
      | some (_, _, _, st') => runWriter ks cipher st' rest
      | none => none

/-- The reader handle built by `iStorage.Open`: the cipher comes from
`newCipher(EncryptionKey)`, the tracked offset starts at 0, and the file
descriptor `(Type, Num)` is stored but used by nothing. -/
structure ReaderHandle where
  cipher : Option XCipher
  offset : Nat
  fdType : Int
  fdNum : Int
deriving DecidableEq

/-- `iStorage.Open`. -/
def openReader (encryptionKey : Option (List Nat)) (version : Int)
    (fd : Int × Int) : ReaderHandle :=
  { cipher := newCipher encryptionKey version, offset := 0,
    fdType := fd.1, fdNum := fd.2 }

/-- A fixed concrete keystream, used to instantiate the abstract AES
keystream in concrete computations. -/
def ks0 : List Nat → Nat → Nat := fun iv n => (iv.headD 0 + n) % 256

/-- The keystream byte the segmented cipher applies at absolute position
`p`: the CTR stream of `p`'s own segment, `p % BlockSize` bytes in. -/
def ksByteAt (ks : List Nat → Nat → Nat) (key : List Nat) (p : Nat) : Nat :=
  ks (getIV key p) (p % BlockSize)

/-! Helper lemmas. -/

theorem ctrXor_length (ks : List Nat → Nat → Nat) (iv : List Nat) :
    ∀ (skip : Nat) (data : List Nat),
      (ctrXor ks iv skip data).length = data.length
  | _, [] => rfl
  | skip, _ :: ds => by
      simp [ctrXor, ctrXor_length ks iv (skip + 1) ds]

theorem ctrXor_getD (ks : List Nat → Nat → Nat) (iv : List Nat) :
    ∀ (skip : Nat) (data : List Nat) (i : Nat), i < data.length →
      (ctrXor ks iv skip data).getD i 0 = data.getD i 0 ^^^ ks iv (skip + i)
  | skip, d :: ds, 0, _ => by simp [ctrXor]
  | skip, d :: ds, i + 1, h => by
      have hi : i < ds.length := by simpa using h
      simp only [ctrXor, List.getD_cons_succ]
      rw [ctrXor_getD ks iv (skip + 1) ds i hi]
      have harg : skip + 1 + i = skip + (i + 1) := by omega
      rw [harg]

theorem ext_getD_nat (l1 l2 : List Nat) (hl : l1.length = l2.length)
    (h : ∀ i, i < l1.length → l1.getD i 0 = l2.getD i 0) : l1 = l2 := by
  apply List.ext_getElem hl
  intro i h1 h2
  have hi := h i h1
  rwa [List.getD_eq_getElem l1 0 h1, List.getD_eq_getElem l2 0 h2] at hi

theorem getD_take_eq (l : List Nat) (b i : Nat) (hib : i < b) (hil : i < l.length) :
    (l.take b).getD i 0 = l.getD i 0 := by
  rw [List.getD_eq_getElem _ 0 (by simp [List.length_take]; omega),
      List.getD_eq_getElem _ 0 hil]
  simp

theorem getD_drop_eq (l : List Nat) (b j : Nat) (h : b + j < l.length) :
    (l.drop b).getD j 0 = l.getD (b + j) 0 := by
  rw [List.getD_eq_getElem _ 0 (by simp [List.length_drop]; omega),
      List.getD_eq_getElem _ 0 h]
  simp

theorem aesLoop_nil (ks : List Nat → Nat → Nat) (key : List Nat) (co : Nat) :
    aesLoop ks key co [] = [] := by
  rw [aesLoop]
  simp

theorem aesLoop_cons (ks : List Nat → Nat → Nat) (key : List Nat) (co : Nat)
    (data : List Nat) (h : data ≠ []) :
    aesLoop ks key co data =
      ctrXor ks (getIV key (co / BlockSize * BlockSize)) 0
          (data.take (min BlockSize data.length))
        ++ aesLoop ks key (co + min BlockSize data.length)
            (data.drop (min BlockSize data.length)) := by
  rw [aesLoop]
  simp [h]

theorem aesLoop_length (ks : List Nat → Nat → Nat) (key : List Nat) :
    ∀ (fuel : Nat) (data : List Nat), data.length ≤ fuel → ∀ co,
      (aesLoop ks key co data).length = data.length := by
  intro fuel
  induction fuel with
  | zero =>
      intro data hle co
      have hd : data = [] := List.eq_nil_of_length_eq_zero (Nat.le_zero.mp hle)
      subst hd
      rw [aesLoop_nil]
  | succ fuel ih =>
      intro data hle co
      by_cases hd : data = []
      · subst hd; rw [aesLoop_nil]
      · rw [aesLoop_cons ks key co data hd]
        have h1 : 1 ≤ data.length := List.length_pos.mpr hd
        have hb40 : BlockSize = 40 := rfl
        rw [List.length_append, ctrXor_length, List.length_take,
            ih (data.drop (min BlockSize data.length))
              (by simp [List.length_drop]; omega) (co + min BlockSize data.length),
            List.length_drop]
        omega

theorem aesLoop_getD (ks : List Nat → Nat → Nat) (key : List Nat) :
    ∀ (fuel : Nat) (data : List Nat), data.length ≤ fuel →
      ∀ co, co % BlockSize = 0 → ∀ i, i < data.length →
      (aesLoop ks key co data).getD i 0
        = data.getD i 0 ^^^ ksByteAt ks key (co + i) := by
  intro fuel
  induction fuel with
  | zero =>
      intro data hle co _ i hi
      omega
  | succ fuel ih =>
      intro data hle co hco i hi
      have hd : data ≠ [] := by
        intro h; subst h; simp at hi
      have h1 : 1 ≤ data.length := List.length_pos.mpr hd
      have hb40 : BlockSize = 40 := rfl
      rw [aesLoop_cons ks key co data hd]
      by_cases hib : i < min BlockSize data.length
      · rw [List.getD_append _ _ _ _
            (by rw [ctrXor_length, List.length_take]; omega),
          ctrXor_getD _ _ _ _ i (by rw [List.length_take]; omega),
          getD_take_eq data _ i hib hi]
        have e1 : co / BlockSize * BlockSize / BlockSize * BlockSize
            = (co + i) / BlockSize * BlockSize := by
          rw [hb40] at hco ⊢; omega
        have e2 : (0 : Nat) + i = (co + i) % BlockSize := by
          rw [hb40] at hco hib ⊢; omega
        simp only [ksByteAt, getIV]
        rw [e1, e2]
      · have hbB : min BlockSize data.length = BlockSize := by
          rw [hb40] at hib ⊢; omega
        have hBlen : BlockSize ≤ data.length := by
          rw [hb40] at hbB ⊢; omega
        rw [List.getD_append_right _ _ _ _
            (by rw [ctrXor_length, List.length_take]; omega),
          ctrXor_length, List.length_take, min_assoc, min_self,
          ih (data.drop (min BlockSize data.length))
            (by simp [List.length_drop]; omega)
            (co + min BlockSize data.length)
            (by rw [hbB, Nat.add_mod_right]; exact hco)
            (i - min BlockSize data.length)
            (by simp [List.length_drop]; omega),
          getD_drop_eq data _ _ (by omega)]
        have e3 : min BlockSize data.length + (i - min BlockSize data.length) = i := by
          omega
        have e4 : co + min BlockSize data.length + (i - min BlockSize data.length)
            = co + i := by omega
        rw [e3, e4]

theorem aesEncryptAt_length (ks : List Nat → Nat → Nat) (key data : List Nat)
    (offset : Nat) : (aesEncryptAt ks key data offset).length = data.length := by
  simp only [aesEncryptAt, BlockSize]
  split
  · rfl
  · split
    · rw [ctrXor_length]
    · split
      · rw [List.length_append, ctrXor_length, List.length_take,
            aesLoop_length ks key (data.drop (40 - (offset - offset / 40 * 40))).length
              _ (le_refl _) _,
            List.length_drop]
        omega
      · rw [aesLoop_length ks key data.length data (le_refl _) offset]

theorem aesEncryptAt_getD (ks : List Nat → Nat → Nat) (key data : List Nat)
    (offset i : Nat) (hi : i < data.length) :
    (aesEncryptAt ks key data offset).getD i 0
      = data.getD i 0 ^^^ ksByteAt ks key (offset + i) := by
  simp only [aesEncryptAt, BlockSize]
  split
  · next hd => subst hd; simp at hi
  · next hd =>
    split
    · next hle =>
      rw [ctrXor_getD _ _ _ _ i hi]
      have e1 : offset / 40 * 40 / 40 * 40 = (offset + i) / 40 * 40 := by omega
      have e2 : offset - offset / 40 * 40 + i = (offset + i) % 40 := by omega
      simp only [ksByteAt, getIV, BlockSize]
      rw [e1, e2]
    · next hgt =>
      split
      · next hpos =>
        by_cases hif : i < 40 - (offset - offset / 40 * 40)
        · rw [List.getD_append _ _ _ _
              (by rw [ctrXor_length, List.length_take]; omega),
            ctrXor_getD _ _ _ _ i (by rw [List.length_take]; omega),
            getD_take_eq data _ i hif hi]
          have e1 : offset / 40 * 40 / 40 * 40 = (offset + i) / 40 * 40 := by
            omega
          have e2 : offset - offset / 40 * 40 + i = (offset + i) % 40 := by
            omega
          simp only [ksByteAt, getIV, BlockSize]
          rw [e1, e2]
        · have hmin : min (40 - (offset - offset / 40 * 40)) data.length
              = 40 - (offset - offset / 40 * 40) := by omega
          rw [List.getD_append_right _ _ _ _
              (by rw [ctrXor_length, List.length_take]; omega),
            ctrXor_length, List.length_take, hmin,
            aesLoop_getD ks key (data.drop (40 - (offset - offset / 40 * 40))).length
              _ (le_refl _)
              (offset + (40 - (offset - offset / 40 * 40)))
              (by simp only [BlockSize]; omega)
              (i - (40 - (offset - offset / 40 * 40)))
              (by simp [List.length_drop]; omega),
            getD_drop_eq data _ _ (by omega)]
          have e3 : 40 - (offset - offset / 40 * 40)
              + (i - (40 - (offset - offset / 40 * 40))) = i := by omega
          have e4 : offset + (40 - (offset - offset / 40 * 40))
              + (i - (40 - (offset - offset / 40 * 40))) = offset + i := by omega
          rw [e3, e4]
      · next hzero =>
        rw [aesLoop_getD ks key data.length data (le_refl _) offset
            (by simp only [BlockSize]; omega) i hi]

theorem xorBytes_length (key : List Nat) :
    ∀ (data : List Nat) (keyOffset : Nat),
      (xorBytes key data keyOffset).length = data.length
  | [], _ => rfl
  | _ :: ds, keyOffset => by
      simp [xorBytes, xorBytes_length key ds (keyOffset + 1)]

theorem xorBytes_getD (key : List Nat) :
    ∀ (data : List Nat) (keyOffset i : Nat), i < data.length →
      (xorBytes key data keyOffset).getD i 0
        = data.getD i 0 ^^^ key.getD ((keyOffset + i) % key.length) 0
  | d :: ds, keyOffset, 0, _ => by simp [xorBytes]
  | d :: ds, keyOffset, i + 1, h => by
      have hi : i < ds.length := by simpa using h
      simp only [xorBytes, List.getD_cons_succ]
      rw [xorBytes_getD key ds (keyOffset + 1) i hi]
      have e : keyOffset + 1 + i = keyOffset + (i + 1) := by omega
      rw [e]

theorem xorEncryptAt_some (key data : List Nat) (offset : Nat) (hk : key ≠ []) :
    xorEncryptAt key data offset
      = some (xorBytes key data (offset % key.length)) := by
  have hl : key.length ≠ 0 := fun h0 => hk (List.eq_nil_of_length_eq_zero h0)
  simp [xorEncryptAt, hl]

theorem xorBytes_involution (key data : List Nat) (keyOffset : Nat) :
    xorBytes key (xorBytes key data keyOffset) keyOffset = data := by
  apply ext_getD_nat
  · rw [xorBytes_length, xorBytes_length]
  · intro i hi
    rw [xorBytes_length, xorBytes_length] at hi
    rw [xorBytes_getD key _ _ i (by rw [xorBytes_length]; exact hi),
        xorBytes_getD key data _ i hi, Nat.xor_cancel_right]

theorem aesEncryptAt_involution (ks : List Nat → Nat → Nat)
    (key data : List Nat) (offset : Nat) :
    aesEncryptAt ks key (aesEncryptAt ks key data offset) offset = data := by
  apply ext_getD_nat
  · rw [aesEncryptAt_length, aesEncryptAt_length]
  · intro i hi
    rw [aesEncryptAt_length, aesEncryptAt_length] at hi
    rw [aesEncryptAt_getD ks key _ offset i (by rw [aesEncryptAt_length]; exact hi),
        aesEncryptAt_getD ks key data offset i hi, Nat.xor_cancel_right]

theorem aesEncryptAt_split (ks : List Nat → Nat → Nat) (key data : List Nat)
    (offset k : Nat) :
    aesEncryptAt ks key (data.take k) offset
        ++ aesEncryptAt ks key (data.drop k) (offset + k)
      = aesEncryptAt ks key data offset := by
  rcases le_or_lt k data.length with hk | hk
  · apply ext_getD_nat
    · rw [List.length_append, aesEncryptAt_length, aesEncryptAt_length,
          aesEncryptAt_length, List.length_take, List.length_drop]
      omega
    · intro i hi
      rw [List.length_append, aesEncryptAt_length, aesEncryptAt_length,
          List.length_take, List.length_drop] at hi
      rw [aesEncryptAt_getD ks key data offset i (by omega)]
      by_cases hik : i < k
      · rw [List.getD_append _ _ _ _
            (by rw [aesEncryptAt_length, List.length_take]; omega),
          aesEncryptAt_getD ks key _ offset i (by rw [List.length_take]; omega),
          getD_take_eq data k i hik (by omega)]
      · rw [List.getD_append_right _ _ _ _
            (by rw [aesEncryptAt_length, List.length_take]; omega),
          aesEncryptAt_length, List.length_take,
          aesEncryptAt_getD ks key _ (offset + k)
            (i - min k data.length)
            (by rw [List.length_drop]; omega),
          getD_drop_eq data k _ (by omega)]
        have e1 : k + (i - min k data.length) = i := by omega
        have e2 : offset + k + (i - min k data.length) = offset + i := by omega
        rw [e1, e2]
  · rw [List.take_of_length_le (by omega), List.drop_of_length_le (by omega)]
    have he : aesEncryptAt ks key [] (offset + k) = [] := by
      simp [aesEncryptAt]
    rw [he, List.append_nil]

/-- The transform a stream applies to transferred bytes: a nil cipher means
no transform at all (`r.cipher != nil` guards), a present cipher encrypts. -/
def streamEncryptAt (ks : List Nat → Nat → Nat) (cipher : Option XCipher)
    (data : List Nat) (offset : Nat) : Option (List Nat) :=
  match cipher with
  | none => some data
  | some c => XCipher.encryptAt ks c data offset

/-- The decrypting counterpart of `streamEncryptAt`. -/
def streamDecryptAt (ks : List Nat → Nat → Nat) (cipher : Option XCipher)
    (data : List Nat) (offset : Nat) : Option (List Nat) :=
  match cipher with
  | none => some data
  | some c => XCipher.decryptAt ks c data offset

theorem normalizeKey_length (key : List Nat) : (normalizeKey key).length = 32 := by
  simp only [normalizeKey]
  split
  · next h => simp [List.length_drop]; omega
  · split
    · next h => simp [List.length_take]; omega
    · next h1 h2 => omega

theorem newAESCipher_some (key : List Nat) :
    newAESCipher key = some (normalizeKey key) := by
  simp [newAESCipher, normalizeKey_length]

theorem runReader_count_aux (ks : List Nat → Nat → Nat) (c : XCipher) :
    ∀ (calls : List RCall) (st : StreamState), st.count < 2 ^ 64 →
      ∀ st', runReader ks (some c) st calls = some st' →
        st'.count = (st.count + (calls.map RCall.size).sum) % 2 ^ 64 := by
  intro calls
  induction calls with
  | nil =>
      intro st hst st' h
      simp only [runReader] at h
      injection h with h2
      subst h2
      simp only [List.map_nil, List.sum_nil, Nat.add_zero]
      omega
  | cons call rest ih =>
      intro st hst st' h
      cases call with
      | seqRead chunk =>
          by_cases hl : chunk.length = 0
          · have hstep : readStep ks (some c) st chunk none = some (chunk, none, st) := by
              simp [readStep, hl]
            simp only [runReader, hstep] at h
            rw [ih st hst st' h]
            simp [RCall.size, hl]
          · cases hdec : XCipher.decryptAt ks c chunk st.offset with
            | none =>
                have hstep : readStep ks (some c) st chunk none = none := by
                  simp [readStep, hl, hdec]
                simp only [runReader, hstep] at h
                exact absurd h (by simp)
            | some dec =>
                have hstep : readStep ks (some c) st chunk none
                    = some (dec, none,
                        ⟨st.offset + chunk.length,
                         (st.count + chunk.length) % 2 ^ 64⟩) := by
                  simp [readStep, hl, hdec]
                simp only [runReader, hstep] at h
                rw [ih _ (Nat.mod_lt _ (by norm_num)) st' h]
                simp only [List.map_cons, List.sum_cons, RCall.size]
                rw [Nat.mod_add_mod, Nat.add_assoc]
      | posRead chunk off =>
          by_cases hl : chunk.length = 0
          · have hstep : readAtStep ks (some c) st chunk off none
                = some (chunk, none, st) := by
              simp [readAtStep, hl]
            simp only [runReader, hstep] at h
            rw [ih st hst st' h]
            simp [RCall.size, hl]
          · cases hdec : XCipher.decryptAt ks c chunk off with
            | none =>
                have hstep : readAtStep ks (some c) st chunk off none = none := by
                  simp [readAtStep, hl, hdec]
                simp only [runReader, hstep] at h
                exact absurd h (by simp)
            | some dec =>
                have hstep : readAtStep ks (some c) st chunk off none
                    = some (dec, none,
                        ⟨st.offset, (st.count + chunk.length) % 2 ^ 64⟩) := by
                  simp [readAtStep, hl, hdec]
                simp only [runReader, hstep] at h
                rw [ih _ (Nat.mod_lt _ (by norm_num)) st' h]
                simp only [List.map_cons, List.sum_cons, RCall.size]
                rw [Nat.mod_add_mod, Nat.add_assoc]

theorem runWriter_count_aux (ks : List Nat → Nat → Nat) (cipher : Option XCipher) :
    ∀ (ws : List (List Nat × Nat)) (st : StreamState), st.count < 2 ^ 64 →
      ∀ st', runWriter ks cipher st ws = some st' →
        st'.count = (st.count + (ws.map (fun w => w.2)).sum) % 2 ^ 64 := by
  intro ws
  induction ws with
  | nil =>
      intro st hst st' h
      simp only [runWriter] at h
      injection h with h2
      subst h2
      simp only [List.map_nil, List.sum_nil, Nat.add_zero]
      omega
  | cons w rest ih =>
      intro st hst st' h
      rcases w with ⟨p, n⟩
      cases cipher with
      | none =>
          have hstep : writeStep ks none st p n none
              = some (p, n, none,
                  ⟨st.offset + n, (st.count + n) % 2 ^ 64⟩) := by
            simp [writeStep]
          simp only [runWriter, hstep] at h
          rw [ih _ (Nat.mod_lt _ (by norm_num)) st' h]
          simp only [List.map_cons, List.sum_cons]
          rw [Nat.mod_add_mod, Nat.add_assoc]
      | some c =>
          cases henc : XCipher.encryptAt ks c p st.offset with
          | none =>
              have hstep : writeStep ks (some c) st p n none = none := by
                simp [writeStep, henc]
              simp only [runWriter, hstep] at h
              exact absurd h (by simp)
          | some enc =>
              have hstep : writeStep ks (some c) st p n none
                  = some (enc, n, none,
                      ⟨st.offset + n, (st.count + n) % 2 ^ 64⟩) := by
                simp [writeStep, henc]
              simp only [runWriter, hstep] at h
              rw [ih _ (Nat.mod_lt _ (by norm_num)) st' h]
              simp only [List.map_cons, List.sum_cons]
              rw [Nat.mod_add_mod, Nat.add_assoc]

theorem runReader_passthrough (ks : List Nat → Nat → Nat) :
    ∀ (calls : List RCall) (st : StreamState),
      runReader ks none st calls = some st := by
  intro calls
  induction calls with
  | nil => intro st; rfl
  | cons call rest ih =>
      intro st
      cases call with
      | seqRead chunk =>
          simp only [runReader, readStep]
          exact ih st
      | posRead chunk off =>
          simp only [runReader, readAtStep]
          exact ih st

/-! Claim theorems. -/

/-- Claim C5, counterexample to the claim as stated: the filler bytes do not
take the values 0,1,2,…; for the one-byte key `[7]` the code appends bytes
`1,2,…,31` (their indices), not `0,1,2,…,30`. -/
theorem C5_counterexample : normalizeKey [7] ≠ [7] ++ List.range 31 := by
  decide

/-- Claim C5 (amended): a key shorter than 32 bytes is padded by appending,
at each position `i ∈ [len(key), 32)`, the filler byte of value `i` — its
index in the normalized key — and a key longer than 32 bytes is truncated to
its first 32 bytes; the normalized key has length 32 and the block cipher
construction then succeeds on it. -/
theorem C5_key_normalization (key : List Nat) :
    (key.length < 32 → normalizeKey key = key ++ (List.range 32).drop key.length)
    ∧ (32 < key.length → normalizeKey key = key.take 32)
    ∧ (normalizeKey key).length = 32
    ∧ newAESCipher key = some (normalizeKey key) := by
  refine ⟨?_, ?_, normalizeKey_length key, newAESCipher_some key⟩
  · intro h
    simp [normalizeKey, h]
  · intro h
    have h2 : ¬ key.length < 32 := by omega
    simp [normalizeKey, h, h2]

/-- Claim C5 witness: the amended statement applied to the short key `[7]`
and the long key `List.range 40`. -/
theorem C5_key_normalization_witness :
    (List.length [7] < 32 ∧ normalizeKey [7] = [7] ++ (List.range 32).drop 1)
    ∧ (32 < (List.range 40).length
        ∧ normalizeKey (List.range 40) = (List.range 40).take 32) := by
  constructor
  · exact ⟨by decide, (C5_key_normalization [7]).1 (by decide)⟩
  · exact ⟨by decide, (C5_key_normalization (List.range 40)).2.1 (by decide)⟩

/-- Claim C10: the repeating-key XOR transform is total exactly on non-empty
keys: with the empty key `offset % len(key)` divides by zero on every input
(modelled by `none`), with a non-empty key it always succeeds; and both
factories accept a non-nil empty key (`newCipher` with version 1 builds an
`xorCipher` with the empty key, `crypto.NewCipher` keeps the empty key). -/
theorem C10_xor_totality (data : List Nat) (offset : Nat) :
    xorEncryptAt [] data offset = none
    ∧ xorDecryptAt [] data offset = none
    ∧ (∀ key : List Nat, key ≠ [] → (xorEncryptAt key data offset).isSome = true)
    ∧ newCipher (some []) 1 = some (XCipher.xor [])
    ∧ cryptoNewCipherKey (some []) = [] := by
  refine ⟨rfl, rfl, ?_, rfl, rfl⟩
  intro key hk
  rw [xorEncryptAt_some key data offset hk]
  rfl

/-- Claim C10 witness: totality holds at the concrete non-empty key `[3]`. -/
theorem C10_xor_totality_witness :
    ([3] ≠ ([] : List Nat))
    ∧ (xorEncryptAt [3] [1, 2] 5).isSome = true := by
  exact ⟨by decide, (C10_xor_totality [1, 2] 5).2.2.1 [3] (by decide)⟩

/-- Claim C4, counterexample to the claim as stated: a non-nil empty key
does not give the passthrough (nil) cipher — with mode 2 the factory
builds an AES cipher from the zero-length key, with mode 1 an XOR cipher. -/
theorem C4_counterexample :
    newCipher (some []) 2 ≠ none ∧ newCipher (some []) 1 ≠ none := by
  decide

/-- Claim C4 (amended): when the key is nil (absent) or the mode is not a
supported cipher mode (neither 1 nor 2, mode None included), the factory
returns the nil (passthrough) cipher, and the passthrough streams move every
byte through unchanged, without failure, on Read, ReadAt and Write. -/
theorem C4_passthrough (ks : List Nat → Nat → Nat) (key : Option (List Nat))
    (version : Int) :
    (key = none ∨ (version ≠ 1 ∧ version ≠ 2) → newCipher key version = none)
    ∧ (∀ (st : StreamState) (chunk : List Nat) (err : Option Nat),
        readStep ks none st chunk err = some (chunk, err, st))
    ∧ (∀ (st : StreamState) (chunk : List Nat) (off : Nat) (err : Option Nat),
        readAtStep ks none st chunk off err = some (chunk, err, st))
    ∧ (∀ (st : StreamState) (p : List Nat) (n : Nat),
        writeStep ks none st p n none
          = some (p, n, none,
              { offset := st.offset + n, count := (st.count + n) % 2 ^ 64 })) := by
  refine ⟨?_, fun st chunk err => rfl, fun st chunk off err => rfl,
    fun st p n => rfl⟩
  rintro (hk | ⟨h1, h2⟩)
  · subst hk; rfl
  · cases key with
    | none => rfl
    | some k => simp [newCipher, h1, h2]

/-- Claim C4 witness: a nil key with mode 3 yields the nil cipher, and the
passthrough stream hands bytes through unchanged. -/
theorem C4_passthrough_witness :
    ((none : Option (List Nat)) = none ∨ ((3 : Int) ≠ 1 ∧ (3 : Int) ≠ 2))
    ∧ newCipher none 3 = none
    ∧ readStep ks0 none { offset := 0, count := 0 } [9, 8] none
        = some ([9, 8], none, { offset := 0, count := 0 }) := by
  refine ⟨Or.inl rfl, (C4_passthrough ks0 none 3).1 (Or.inl rfl), ?_⟩
  exact (C4_passthrough ks0 none 3).2.1 { offset := 0, count := 0 } [9, 8] none

/-- Claim C6, counterexample to the claim as stated: when the underlying
`Read` returns bytes *and* an error (`n > 0` with a non-nil error, which the
Go reader contract allows), an encrypting stream still decrypts, advances
`trackedOffset` and increments the counter — the state is not untouched. -/
theorem C6_counterexample :
    readStep ks0 (some (XCipher.xor [5])) { offset := 0, count := 0 }
        [1, 2, 3] (some 7)
      = some ([4, 7, 6], some 7, { offset := 3, count := 3 })
    ∧ ({ offset := 3, count := 3 } : StreamState)
        ≠ { offset := 0, count := 0 } := by
  constructor
  · rfl
  · decide

/-- Claim C6 (amended): on a sequential `Read` whose underlying read returns
an error having transferred no bytes (`n = 0`), the wrapper returns the
error unchanged and leaves `trackedOffset` and the counter untouched; and in
every case (any byte count, any cipher) the error value is returned
unchanged. -/
theorem C6_read_error (ks : List Nat → Nat → Nat) (cipher : Option XCipher)
    (st : StreamState) (chunk : List Nat) (err : Option Nat) :
    (chunk = [] → readStep ks cipher st chunk err = some (chunk, err, st))
    ∧ (∀ out e st', readStep ks cipher st chunk err = some (out, e, st')
        → e = err) := by
  constructor
  · intro h
    subst h
    cases cipher with
    | none => rfl
    | some c => rfl
  · intro out e st' h
    cases cipher with
    | none =>
        simp only [readStep] at h
        injection h with h1
        injection h1 with _ h2
        injection h2 with h3
        exact h3.symm
    | some c =>
        by_cases hl : chunk.length = 0
        · simp only [readStep, hl, if_pos] at h
          injection h with h1
          injection h1 with _ h2
          injection h2 with h3
          exact h3.symm
        · cases hdec : XCipher.decryptAt ks c chunk st.offset with
          | none => simp [readStep, hl, hdec] at h
          | some dec =>
              simp only [readStep, hl, if_neg, hdec] at h
              injection h with h1
              injection h1 with _ h2
              injection h2 with h3
              exact h3.symm

/-- Claim C6 witness: a zero-byte erroring read on an encrypting stream
leaves the state untouched and returns the error unchanged. -/
theorem C6_read_error_witness :
    (([] : List Nat) = [])
    ∧ readStep ks0 (some (XCipher.xor [5])) { offset := 4, count := 9 } []
        (some 3)
      = some ([], some 3, { offset := 4, count := 9 }) := by
  exact ⟨rfl,
    (C6_read_error ks0 (some (XCipher.xor [5]))
      { offset := 4, count := 9 } [] (some 3)).1 rfl⟩

/-- Claim C7: `ReadAt` never changes the stream's sequential cursor
(`trackedOffset`), whether the underlying read succeeds or fails, and its
output depends only on the caller-supplied offset, not on the cursor. -/
theorem C7_readAt_stateless (ks : List Nat → Nat → Nat)
    (cipher : Option XCipher) (o1 o2 cnt : Nat) (chunk : List Nat)
    (off : Nat) (err : Option Nat) :
    (∀ out e st',
        readAtStep ks cipher { offset := o1, count := cnt } chunk off err
          = some (out, e, st') → st'.offset = o1)
    ∧ Option.map (fun r => r.1)
        (readAtStep ks cipher { offset := o1, count := cnt } chunk off err)
      = Option.map (fun r => r.1)
        (readAtStep ks cipher { offset := o2, count := cnt } chunk off err) := by
  constructor
  · intro out e st' h
    cases cipher with
    | none =>
        simp only [readAtStep] at h
        injection h with h1
        injection h1 with _ h2
        injection h2 with _ h3
        rw [← h3]
    | some c =>
        by_cases hl : chunk.length = 0
        · simp only [readAtStep, hl, if_pos] at h
          injection h with h1
          injection h1 with _ h2
          injection h2 with _ h3
          rw [← h3]
        · cases hdec : XCipher.decryptAt ks c chunk off with
          | none => simp [readAtStep, hl, hdec] at h
          | some dec =>
              simp only [readAtStep, hl, if_neg, hdec] at h
              injection h with h1
              injection h1 with _ h2
              injection h2 with _ h3
              rw [← h3]
  · cases cipher with
    | none => rfl
    | some c =>
        by_cases hl : chunk.length = 0
        · simp [readAtStep, hl]
        · cases hdec : XCipher.decryptAt ks c chunk off with
          | none => simp [readAtStep, hl, hdec]
          | some dec => simp [readAtStep, hl, hdec]

/-- Claim C7 witness: a concrete `ReadAt` on an encrypting stream leaves the
cursor where it was. -/
theorem C7_readAt_stateless_witness :
    readAtStep ks0 (some (XCipher.xor [5])) { offset := 11, count := 0 }
        [1, 2] 7 none
      = some ([1 ^^^ 5, 2 ^^^ 5], none, { offset := 11, count := 2 })
    ∧ ({ offset := 11, count := 2 } : StreamState).offset = 11 := by
  have h : readAtStep ks0 (some (XCipher.xor [5]))
      { offset := 11, count := 0 } [1, 2] 7 none
      = some ([1 ^^^ 5, 2 ^^^ 5], none, { offset := 11, count := 2 }) := by
    rfl
  exact ⟨h,
    (C7_readAt_stateless ks0 (some (XCipher.xor [5])) 11 3 0 [1, 2] 7 none).1
      [1 ^^^ 5, 2 ^^^ 5] none { offset := 11, count := 2 } h⟩

/-- Claim C1, counterexample to the claim as stated: construction accepts
the non-nil empty key for the XOR strategy, and for that accepted key the
encrypt/decrypt round trip faults (division by zero, modelled by `none`)
instead of returning the data. -/
theorem C1_counterexample :
    newCipher (some []) 1 = some (XCipher.xor [])
    ∧ (streamEncryptAt ks0 (newCipher (some []) 1) [0] 0).bind
        (fun e => streamDecryptAt ks0 (newCipher (some []) 1) e 0)
      ≠ some [0] := by
  constructor
  · rfl
  · decide

/-- Claim C1 (amended): for every cipher built by the factory — passthrough,
repeating-key XOR or segmented AES-CTR — every accepted key that is
non-empty in the XOR case (the factory also accepts the empty XOR key, on
which the cipher faults), all data and all offsets, decrypting the
encryption at the same offset returns the data. -/
theorem C1_roundtrip (ks : List Nat → Nat → Nat) (key : Option (List Nat))
    (version : Int) (data : List Nat) (offset : Nat)
    (hxor : ∀ k, newCipher key version = some (XCipher.xor k) → k ≠ []) :
    (streamEncryptAt ks (newCipher key version) data offset).bind
      (fun e => streamDecryptAt ks (newCipher key version) e offset)
      = some data := by
  cases hc : newCipher key version with
  | none => simp [streamEncryptAt, streamDecryptAt]
  | some c =>
      cases c with
      | xor k =>
          have hk : k ≠ [] := hxor k hc
          simp only [streamEncryptAt, streamDecryptAt, XCipher.encryptAt,
            XCipher.decryptAt]
          rw [xorEncryptAt_some k data offset hk]
          simp only [Option.some_bind]
          rw [xorEncryptAt_some k _ offset hk, xorBytes_involution]
      | aes k =>
          simp [streamEncryptAt, streamDecryptAt, XCipher.encryptAt,
            XCipher.decryptAt, aesEncryptAt_involution]

/-- Claim C1 witness: round trip at the XOR cipher with key `[1, 2]`,
data `[5, 6, 7]`, offset 3. -/
theorem C1_roundtrip_witness :
    (∀ k, newCipher (some [1, 2]) 1 = some (XCipher.xor k) → k ≠ [])
    ∧ (streamEncryptAt ks0 (newCipher (some [1, 2]) 1) [5, 6, 7] 3).bind
        (fun e => streamDecryptAt ks0 (newCipher (some [1, 2]) 1) e 3)
      = some [5, 6, 7] := by
  have hx : ∀ k, newCipher (some [1, 2]) 1 = some (XCipher.xor k) → k ≠ [] := by
    intro k hk
    simp only [newCipher, if_pos] at hk
    injection hk with hk2
    injection hk2 with hk3
    rw [← hk3]
    decide
  exact ⟨hx, C1_roundtrip ks0 (some [1, 2]) 1 [5, 6, 7] 3 hx⟩

/-- Claim C2: split-invariance of the segmented AES-CTR cipher — encrypting
a prefix at `O` and the remainder at `O + k` concatenates to encrypting the
whole at `O`; in particular (segment size 40) the first 5 ciphertext bytes
of a 65-byte span encrypted at offset 35 (absolute positions [35,100)) equal
the ciphertext of the 5 bytes [35,40) encrypted alone. -/
theorem C2_split_invariance (ks : List Nat → Nat → Nat) (key data : List Nat)
    (offset k : Nat) (hk : k ≤ data.length) :
    (aesEncryptAt ks (normalizeKey key) (data.take k) offset
        ++ aesEncryptAt ks (normalizeKey key) (data.drop k) (offset + k)
      = aesEncryptAt ks (normalizeKey key) data offset)
    ∧ (∀ d : List Nat, d.length = 65 →
        (aesEncryptAt ks (normalizeKey key) d 35).take 5
          = aesEncryptAt ks (normalizeKey key) (d.take 5) 35) := by
  constructor
  · exact aesEncryptAt_split ks (normalizeKey key) data offset k
  · intro d hd
    rw [← aesEncryptAt_split ks (normalizeKey key) d 35 5]
    have hlen : (aesEncryptAt ks (normalizeKey key) (d.take 5) 35).length = 5 := by
      rw [aesEncryptAt_length, List.length_take]
      omega
    rw [List.take_left' hlen]

/-- Claim C2 witness: the split at `k = 2` of a 3-byte span encrypted at
offset 39 (which straddles the segment boundary at 40). -/
theorem C2_split_invariance_witness :
    (2 ≤ List.length [1, 2, 3])
    ∧ (aesEncryptAt ks0 (normalizeKey []) (List.take 2 [1, 2, 3]) 39
        ++ aesEncryptAt ks0 (normalizeKey []) (List.drop 2 [1, 2, 3]) (39 + 2)
      = aesEncryptAt ks0 (normalizeKey []) [1, 2, 3] 39) := by
  exact ⟨by decide, (C2_split_invariance ks0 [] [1, 2, 3] 39 2 (by decide)).1⟩

/-- Claim C3, counterexample to the claim as stated: in passthrough mode
(nil cipher) a successful sequential `Read` transferring 3 bytes leaves
`totalRead` at 0 — the counter does not increment in mode none. -/
theorem C3_counterexample :
    runReader ks0 none { offset := 0, count := 0 } [RCall.seqRead [1, 2, 3]]
      = some { offset := 0, count := 0 }
    ∧ ([RCall.seqRead [1, 2, 3]].map RCall.size).sum = 3
    ∧ (3 : Nat) ≠ 0 := by
  refine ⟨rfl, by decide, by decide⟩

/-- Claim C3 (amended): over any sequence of successful Read/ReadAt/Write
calls on streams of one storage, the counters accumulate the transferred
byte counts modulo 2^64 (exactly Σbᵢ while that sum stays below 2^64) —
for reads whenever a cipher is present, for writes in every mode — but in
passthrough mode (nil cipher) Read and ReadAt leave the stream state,
`totalRead` included, completely unchanged. -/
theorem C3_counters (ks : List Nat → Nat → Nat) :
    (∀ (c : XCipher) (o : Nat) (calls : List RCall) (st' : StreamState),
        runReader ks (some c) { offset := o, count := 0 } calls = some st' →
        st'.count = (calls.map RCall.size).sum % 2 ^ 64)
    ∧ (∀ (cipher : Option XCipher) (o : Nat) (ws : List (List Nat × Nat))
        (st' : StreamState),
        runWriter ks cipher { offset := o, count := 0 } ws = some st' →
        st'.count = (ws.map (fun w => w.2)).sum % 2 ^ 64)
    ∧ (∀ (o cnt : Nat) (calls : List RCall),
        runReader ks none { offset := o, count := cnt } calls
          = some { offset := o, count := cnt }) := by
  refine ⟨?_, ?_, ?_⟩
  · intro c o calls st' h
    have hr := runReader_count_aux ks c calls { offset := o, count := 0 }
      (by norm_num) st' h
    simpa using hr
  · intro cipher o ws st' h
    have hw := runWriter_count_aux ks cipher ws { offset := o, count := 0 }
      (by norm_num) st' h
    simpa using hw
  · intro o cnt calls
    exact runReader_passthrough ks calls { offset := o, count := cnt }

/-- Claim C3 witness: an encrypting reader accumulates 2 + 1 = 3 bytes over
a sequential `Read` and a `ReadAt`, and an encrypting writer accumulates
2 + 2 = 4 accepted bytes over two `Write` calls. -/
theorem C3_counters_witness :
    runReader ks0 (some (XCipher.xor [7])) { offset := 0, count := 0 }
        [RCall.seqRead [1, 2], RCall.posRead [3] 5]
      = some { offset := 2, count := 3 }
    ∧ ({ offset := 2, count := 3 } : StreamState).count
        = ([RCall.seqRead [1, 2], RCall.posRead [3] 5].map RCall.size).sum
          % 2 ^ 64
    ∧ runWriter ks0 (some (XCipher.xor [7])) { offset := 0, count := 0 }
        [([1, 2], 2), ([3, 4], 2)]
      = some { offset := 4, count := 4 }
    ∧ ({ offset := 4, count := 4 } : StreamState).count
        = ([([1, 2], 2), ([3, 4], 2)].map
            (fun w : List Nat × Nat => w.2)).sum % 2 ^ 64 := by
  have hr : runReader ks0 (some (XCipher.xor [7])) { offset := 0, count := 0 }
      [RCall.seqRead [1, 2], RCall.posRead [3] 5]
      = some { offset := 2, count := 3 } := by rfl
  have hw : runWriter ks0 (some (XCipher.xor [7])) { offset := 0, count := 0 }
      [([1, 2], 2), ([3, 4], 2)]
      = some { offset := 4, count := 4 } := by rfl
  exact ⟨hr, (C3_counters ks0).1 (XCipher.xor [7]) 0 _ _ hr,
    hw, (C3_counters ks0).2.1 (some (XCipher.xor [7])) 0 _ _ hw⟩

/-- Claim C8: the IV of the segment starting at `b` is the first 8 bytes of
the normalized key followed by the 8-byte little-endian encoding of `b`,
filling the 16-byte block; the file identifier is not mixed in — two
handles opened on different files under the same key carry the same cipher,
so they apply the same keystream at every offset. -/
theorem C8_iv_derivation (ks : List Nat → Nat → Nat) (key : List Nat)
    (b : Nat) (hb : b % BlockSize = 0) (encryptionKey : Option (List Nat))
    (version : Int) (fd1 fd2 : Int × Int) :
    getIV (normalizeKey key) b = (normalizeKey key).take 8 ++ leBytes8 b
    ∧ (getIV (normalizeKey key) b).length = 16
    ∧ (openReader encryptionKey version fd1).cipher
        = (openReader encryptionKey version fd2).cipher
    ∧ (∀ (data : List Nat) (off : Nat),
        streamDecryptAt ks (openReader encryptionKey version fd1).cipher data off
          = streamDecryptAt ks (openReader encryptionKey version fd2).cipher
              data off) := by
  have hb2 : b / BlockSize * BlockSize = b := by
    simp only [BlockSize] at hb ⊢
    omega
  refine ⟨?_, ?_, rfl, fun data off => rfl⟩
  · simp only [getIV, hb2]
  · simp only [getIV, hb2, List.length_append, List.length_take, leBytes8,
      List.length_cons, List.length_nil, normalizeKey_length]
    omega

/-- Claim C8 witness: the IV of the segment starting at `b = 80`, and the
cipher equality of two handles on different files. -/
theorem C8_iv_derivation_witness :
    (80 % BlockSize = 0)
    ∧ getIV (normalizeKey [9]) 80 = (normalizeKey [9]).take 8 ++ leBytes8 80
    ∧ (openReader (some [9]) 2 (0, 1)).cipher
        = (openReader (some [9]) 2 (2, 7)).cipher := by
  refine ⟨by decide, ?_, ?_⟩
  · exact (C8_iv_derivation ks0 [9] 80 (by decide) (some [9]) 2 (0, 1) (2, 7)).1
  · exact (C8_iv_derivation ks0 [9] 80 (by decide) (some [9]) 2 (0, 1) (2, 7)).2.2.1

/-- Claim C9: segment independence of the segmented AES-CTR cipher — if two
equal-length plaintexts differ only at index `j` (inside segment A) and
index `i` falls in a different segment (segment B disjoint from A), the
ciphertexts agree at `i`: a byte flip in one segment never changes
ciphertext bytes of a disjoint segment. -/
theorem C9_segment_independence (ks : List Nat → Nat → Nat)
    (key d1 d2 : List Nat) (offset i j : Nat)
    (hlen : d1.length = d2.length)
    (hdiff : ∀ t, t < d1.length → t ≠ j → d1.getD t 0 = d2.getD t 0)
    (hi : i < d1.length)
    (hseg : (offset + i) / BlockSize ≠ (offset + j) / BlockSize) :
    (aesEncryptAt ks (normalizeKey key) d1 offset).getD i 0
      = (aesEncryptAt ks (normalizeKey key) d2 offset).getD i 0 := by
  rw [aesEncryptAt_getD ks (normalizeKey key) d1 offset i hi,
      aesEncryptAt_getD ks (normalizeKey key) d2 offset i (by omega),
      hdiff i hi (fun hij => hseg (by rw [hij]))]

/-- Claim C9 witness: flipping byte 0 (absolute position 38, segment 0) does
not change ciphertext byte 3 (absolute position 41, segment 1). -/
theorem C9_segment_independence_witness :
    (List.length [1, 2, 3, 4] = List.length [9, 2, 3, 4])
    ∧ (∀ t, t < List.length [1, 2, 3, 4] → t ≠ 0 →
        List.getD [1, 2, 3, 4] t 0 = List.getD [9, 2, 3, 4] t 0)
    ∧ (3 < List.length [1, 2, 3, 4])
    ∧ ((38 + 3) / BlockSize ≠ (38 + 0) / BlockSize)
    ∧ (aesEncryptAt ks0 (normalizeKey []) [1, 2, 3, 4] 38).getD 3 0
        = (aesEncryptAt ks0 (normalizeKey []) [9, 2, 3, 4] 38).getD 3 0 := by
  refine ⟨by decide, by decide, by decide, by decide, ?_⟩
  exact C9_segment_independence ks0 [] [1, 2, 3, 4] [9, 2, 3, 4] 38 3 0
    (by decide) (by decide) (by decide) (by decide)

end GoLevelDB
